import Mathlib

/-!
Verification of the µOS++ `utils-lists` double linked list library
(`src/lists.cpp`, `include/micro-os-plus/utils/lists.h`).

Link nodes are modelled as records of two optional machine addresses
(`none` models the C++ null pointer); program memory is a heap mapping
addresses to link records, and each C++ member function becomes a
function on heaps, translated statement by statement from the source.
-/

namespace UtilsLists

/-- Machine address of a list link node. -/
abbrev Addr : Type := Nat

/-- Translation of `double_list_links_base` (lists.h:86): the pair of
neighbour pointers `previous_` and `next_` (lists.h:221, lists.h:226);
`none` models the C++ null pointer. -/
structure Link where
  previous_ : Option Addr
  next_ : Option Addr
deriving DecidableEq

/-- Program memory: every address holds a link record. -/
abbrev Heap : Type := Addr → Link

/-- Store a whole link record at address `a`. -/
def Heap.write (h : Heap) (a : Addr) (l : Link) : Heap :=
  fun x => if x = a then l else h x

/-- Translation of the setter `next (n)` (lists.h:197): assign the
`next_` member of the node at address `a`. -/
def Heap.setNext (h : Heap) (a : Addr) (n : Option Addr) : Heap :=
  h.write a { h a with next_ := n }

/-- Translation of the setter `previous (n)` (lists.h:205). -/
def Heap.setPrev (h : Heap) (a : Addr) (p : Option Addr) : Heap :=
  h.write a { h a with previous_ := p }

/-- Result of `static_double_list_links::linked` (lists.cpp:54): true iff
both pointers are non null. -/
def Link.linked (l : Link) : Bool :=
  l.next_.isSome && l.previous_.isSome

/-- Assertion status of `linked` (lists.cpp:61, lists.cpp:62): on the
path returning false it asserts that both pointers are null. -/
def Link.linked_assert_ok (l : Link) : Bool :=
  l.linked || ((l.next_ == none) && (l.previous_ == none))

/-- Modelled from the spec: `static_double_list_links::nullify`, declared
at lists.h:397 with its body in `inlines.h` which is not under src/; the
spec (section 4.3) says it "forces both pointers back to null". The older
`lists.cpp` calls this internal step `clear`, cf. the comment at
lists.cpp:96, "Nullify both pointers in the unlinked node". -/
def nullify (h : Heap) (a : Addr) : Heap :=
  h.write a ⟨none, none⟩

/-- Translation of `static_double_list_links::unlink` (lists.cpp:74).
When the node is not linked the function returns without touching memory;
otherwise the two neighbours are pointed at each other, the members being
re-read exactly in source order, and the node is nullified. -/
def unlink (h : Heap) (a : Addr) : Heap :=
  match (h a).previous_, (h a).next_ with
  | some p, some n =>
    let h1 := h.setNext p (some n)
    let h2 :=
      match (h1 a).next_ with
      | some n2 => h1.setPrev n2 ((h1 a).previous_)
      | none => h1
    nullify h2 a
  | _, _ => h

/-- Assertion status of `unlink` (lists.cpp:80, lists.cpp:81, plus the
assertions inside its call to `linked`): the checks pass iff the node is
fully linked or fully null. -/
def unlink_assert_ok (h : Heap) (a : Addr) : Bool :=
  (h a).linked || (((h a).next_ == none) && ((h a).previous_ == none))

/-- Modelled from the spec: `static_double_list_links::uninitialized`,
declared at lists.h:379 with its body in `inlines.h` which is not under
src/; the spec (section 4.3) says "uninitialized(): true iff both
pointers are null". The list level `uninitialized()` (spec section 4.5)
forwards to the head node. -/
def uninitialized (h : Heap) (hd : Addr) : Bool :=
  ((h hd).previous_ == none) && ((h hd).next_ == none)

/-- Translation of `static_double_list::clear` (lists.cpp:122):
`head_.next (&head_); head_.previous (&head_)`. -/
def clear (h : Heap) (hd : Addr) : Heap :=
  (h.setNext hd (some hd)).setPrev hd (some hd)

/-- Translation of `static_double_list::empty` (lists.cpp:132):
`(head_.next () == &head_) || uninitialized ()`. The member is const: it
does not modify the list. -/
def empty (h : Heap) (hd : Addr) : Bool :=
  ((h hd).next_ == some hd) || uninitialized h hd

/-- Translation of `static_double_list::begin` (lists.cpp:139): lazily
initialise an uninitialized list, then return the iterator holding the
pointer `head_.next ()`; the possibly mutated heap is returned alongside
the iterator's node pointer. -/
def begin (h : Heap) (hd : Addr) : Heap × Option Addr :=
  let h1 := if uninitialized h hd then clear h hd else h
  (h1, (h1 hd).next_)

/-- Modelled from the spec: `static_double_list::tail`, whose body is not
under src/; the spec (section 4.5) says "head()/tail(): direct pointer
accessors to the extremal elements (or to the sentinel when empty)": the
tail is the head node's `previous` pointer. -/
def tail (h : Heap) (hd : Addr) : Option Addr :=
  (h hd).previous_

/-- Translation of `static_double_list::insert_after` (lists.cpp:172):
the four pointer writes in source order, `after->next ()` being re-read
at each use. When `after->next ()` is null the source dereferences a null
pointer (the assertion at lists.cpp:187 has already failed); the write
through it is skipped here. -/
def insert_after (h : Heap) (node after : Addr) : Heap :=
  let h1 := h.setPrev node (some after)
  let h2 := h1.setNext node ((h1 after).next_)
  let h3 :=
    match (h2 after).next_ with
    | some x => h2.setPrev x (some node)
    | none => h2
  h3.setNext after (some node)

/-- Assertion status of `insert_after` (lists.cpp:182, lists.cpp:183,
lists.cpp:187): the inserted node must have both pointers null and
`after` must have a non null `next`. -/
def insert_after_assert_ok (h : Heap) (node after : Addr) : Bool :=
  ((h node).previous_ == none) && ((h node).next_ == none)
    && !((h after).next_ == none)

/-- Translation of `static_double_list::link` (lists.cpp:159): lazy
initialisation, then `insert_after (node, tail ())`. A null `tail ()`
would be dereferenced by the source; it cannot occur once the list is
initialised and is modelled as a no-op. -/
def link (h : Heap) (hd node : Addr) : Heap :=
  let h1 := if uninitialized h hd then clear h hd else h
  match tail h1 hd with
  | some t => insert_after h1 node t
  | none => h1

/-- Assertion status of the `link` path: the assertions of `insert_after`
evaluated on the lazily initialised heap at `after = tail ()`. A null
`tail ()` would be dereferenced before any assertion; it is recorded as a
failure. -/
def link_assert_ok (h : Heap) (hd node : Addr) : Bool :=
  let h1 := if uninitialized h hd then clear h hd else h
  match tail h1 hd with
  | some t => insert_after_assert_ok h1 node t
  | none => false

/-- Translation of `double_list::double_list` (lists.cpp:204): the
constructor calls `clear ()`, establishing the self referential empty
state. -/
def double_list_construct (h : Heap) (hd : Addr) : Heap :=
  clear h hd

/-- Assertion status of `double_list::~double_list` (lists.cpp:218): the
destructor asserts `empty ()`. -/
def destruct_assert_ok (h : Heap) (hd : Addr) : Bool :=
  empty h hd

/-- Iteration engine: follow `next` pointers from `a`, collecting nodes
until the sentinel `hd` is reached (`operator++` of
`double_list_iterator`, lists.h:491; iterator comparison is node pointer
equality). The fuel bounds the walk; a null `next` pointer, which the
source would dereference, stops it. -/
def traverseFrom (h : Heap) (hd : Addr) : Nat → Addr → List Addr
  | 0, _ => []
  | fuel + 1, a =>
    if a = hd then []
    else
      a :: (match (h a).next_ with
            | some n => traverseFrom h hd fuel n
            | none => [])

/-- Nodes visited by a full iteration from `begin ()` to `end ()`,
including the lazy initialisation performed by `begin`. -/
def visited (h : Heap) (hd : Addr) (fuel : Nat) : List Addr :=
  match (begin h hd).2 with
  | some a => traverseFrom (begin h hd).1 hd fuel a
  | none => []

/-- Element operation of the round trip property: add at the tail, or
unlink. -/
inductive Op where
  | linkTail (a : Addr)
  | unlinkNode (a : Addr)
deriving DecidableEq

/-- Address operated on. -/
def Op.addr : Op → Addr
  | .linkTail a => a
  | .unlinkNode a => a

/-- Execute one operation on the list anchored at the sentinel `hd`. -/
def execOp (hd : Addr) (h : Heap) : Op → Heap
  | .linkTail a => link h hd a
  | .unlinkNode a => unlink h a

/-- Execute a sequence of operations. -/
def execOps (hd : Addr) (h : Heap) : List Op → Heap
  | [] => h
  | op :: ops => execOps hd (execOp hd h op) ops

/-- Validity of an operation sequence: every operation addresses an
element node from the universe `S` (never the sentinel, since `hd ∉ S`
is required separately), and a node being linked satisfies the
documented precondition of `insert_after` at that moment: both pointers
null, i.e. currently unlinked. -/
def validOps (hd : Addr) (S : List Addr) : Heap → List Op → Prop
  | _, [] => True
  | h, op :: ops =>
    (op.addr ∈ S ∧
      (match op with
       | .linkTail a => h a = ⟨none, none⟩
       | .unlinkNode _ => True)) ∧
    validOps hd S (execOp hd h op) ops

/-- Number of currently linked nodes among the candidate nodes `S`. -/
def linkedCount (h : Heap) (S : List Addr) : Nat :=
  (S.filter fun a => (h a).linked).length

/-- Modelled from the spec: `intrusive_list::get_pointer`, declared at
lists.h:1074 with its body in `inlines.h` which is not under src/; the
class comment (lists.h:939) says it "compute[s] the address of the object
by subtracting the offset from the address of the member storing the
pointers". `off` is the byte offset of the embedded link member inside
the owning object. -/
def get_pointer (off : Nat) (node : Addr) : Addr :=
  node - off

/-- Address of the embedded link member of the owning object placed at
address `o`, for member offset `off`. -/
def member_addr (o off : Nat) : Addr :=
  o + off

/-- Modelled from the spec: `intrusive_list::link_tail`, declared at
lists.h:1020 with its body in `inlines.h` which is not under src/; the
spec (section 4.6) says it locates "the embedded link field inside
`ownerRef`" and delegates to the underlying container. -/
def intrusive_link_tail (h : Heap) (hd : Addr) (off o : Nat) : Heap :=
  link h hd (member_addr o off)

/-- Pointer chain: from `a`, following the pointer member selected by `f`
(the `next_` or the `previous_` field), the nodes of `l` are traversed in
order and the walk ends pointing at `b`. -/
def chainF (f : Link → Option Addr) (h : Heap) : Addr → List Addr → Addr → Prop
  | a, [], b => f (h a) = some b
  | a, x :: l, b => f (h a) = some x ∧ chainF f h x l b

/-- Abstraction relation: the circular list anchored at the sentinel `hd`
holds exactly the element nodes `l`, in order: the `next` pointers walk
the cycle `hd, l…, hd`, the `previous` pointers walk the reversed cycle,
and all involved nodes are distinct. -/
def represents (h : Heap) (hd : Addr) (l : List Addr) : Prop :=
  chainF Link.next_ h hd l hd ∧ chainF Link.previous_ h hd l.reverse hd
    ∧ (hd :: l).Nodup

/-- Last element of the walk `a :: l`. -/
def lastD (l : List Addr) (a : Addr) : Addr :=
  l.reverse.headD a

/-- The all zero heap: every node is in the BSS initialised state. -/
def zeroHeap : Heap :=
  fun _ => ⟨none, none⟩

@[simp]
theorem Heap.write_read (h : Heap) (a : Addr) (l : Link) (x : Addr) :
    h.write a l x = if x = a then l else h x := rfl

@[simp]
theorem Heap.setNext_next (h : Heap) (a : Addr) (n : Option Addr) (x : Addr) :
    (h.setNext a n x).next_ = if x = a then n else (h x).next_ := by
  unfold Heap.setNext Heap.write
  by_cases hx : x = a <;> simp [hx]

@[simp]
theorem Heap.setNext_prev (h : Heap) (a : Addr) (n : Option Addr) (x : Addr) :
    (h.setNext a n x).previous_ = (h x).previous_ := by
  unfold Heap.setNext Heap.write
  by_cases hx : x = a <;> simp [hx]

@[simp]
theorem Heap.setPrev_prev (h : Heap) (a : Addr) (p : Option Addr) (x : Addr) :
    (h.setPrev a p x).previous_ = if x = a then p else (h x).previous_ := by
  unfold Heap.setPrev Heap.write
  by_cases hx : x = a <;> simp [hx]

@[simp]
theorem Heap.setPrev_next (h : Heap) (a : Addr) (p : Option Addr) (x : Addr) :
    (h.setPrev a p x).next_ = (h x).next_ := by
  unfold Heap.setPrev Heap.write
  by_cases hx : x = a <;> simp [hx]

@[simp]
theorem nullify_read (h : Heap) (a : Addr) (x : Addr) :
    nullify h a x = if x = a then ⟨none, none⟩ else h x := rfl

theorem chainF_head {f : Link → Option Addr} {h : Heap} {a b : Addr}
    {l : List Addr} (hc : chainF f h a l b) : f (h a) = some (l.headD b) := by
  cases l with
  | nil => exact hc
  | cons x l => exact hc.1

theorem chainF_last {f : Link → Option Addr} {h : Heap} {b : Addr} :
    ∀ (l : List Addr) (a : Addr), chainF f h a l b →
      f (h (lastD l a)) = some b := by
  intro l
  induction l with
  | nil => intro a hc; exact hc
  | cons x l ih =>
    intro a hc
    have hx : lastD (x :: l) a = lastD l x := by
      unfold lastD
      cases hr : l.reverse with
      | nil => simp [List.reverse_cons, hr]
      | cons y t => simp [List.reverse_cons, hr]
    rw [hx]
    exact ih x hc.2

theorem lastD_mem (l : List Addr) (a : Addr) : lastD l a ∈ a :: l := by
  unfold lastD
  cases hr : l.reverse with
  | nil => simp
  | cons y t =>
    have : y ∈ l.reverse := by rw [hr]; exact List.mem_cons_self y t
    simp only [List.headD_cons]
    exact List.mem_cons_of_mem a (List.mem_reverse.mp this)

theorem chainF_append {f : Link → Option Addr} {h : Heap} {x b : Addr} :
    ∀ (l1 : List Addr) (a : Addr) (l2 : List Addr),
      chainF f h a (l1 ++ x :: l2) b ↔ chainF f h a l1 x ∧ chainF f h x l2 b := by
  intro l1
  induction l1 with
  | nil =>
    intro a l2
    constructor
    · intro hc; exact ⟨hc.1, hc.2⟩
    · intro hc; exact ⟨hc.1, hc.2⟩
  | cons y l1 ih =>
    intro a l2
    constructor
    · intro hc
      have := (ih y l2).mp hc.2
      exact ⟨⟨hc.1, this.1⟩, this.2⟩
    · intro hc
      exact ⟨hc.1.1, (ih y l2).mpr ⟨hc.1.2, hc.2⟩⟩

theorem chainF_congr {f : Link → Option Addr} {h h' : Heap} {b : Addr} :
    ∀ (l : List Addr) (a : Addr),
      (∀ y ∈ a :: l, f (h' y) = f (h y)) →
      chainF f h a l b → chainF f h' a l b := by
  intro l
  induction l with
  | nil =>
    intro a hy hc
    exact (hy a (List.mem_cons_self a [])).trans hc
  | cons x l ih =>
    intro a hy hc
    refine ⟨(hy a (List.mem_cons_self a _)).trans hc.1, ih x ?_ hc.2⟩
    intro y hmem
    exact hy y (List.mem_cons_of_mem a hmem)

theorem chainF_sources_some {f : Link → Option Addr} {h : Heap} {b : Addr} :
    ∀ (l : List Addr) (a : Addr), chainF f h a l b →
      ∀ y ∈ a :: l, (f (h y)).isSome := by
  intro l
  induction l with
  | nil =>
    intro a hc y hy
    rcases List.mem_cons.mp hy with rfl | hy
    · have hc' : f (h y) = some b := hc
      simp [hc']
    · exact absurd hy (List.not_mem_nil y)
  | cons x l ih =>
    intro a hc y hy
    rcases List.mem_cons.mp hy with rfl | hy
    · simp [hc.1]
    · exact ih x hc.2 y hy

theorem chainF_update_last {f : Link → Option Addr} {h h' : Heap} {b c : Addr} :
    ∀ (l : List Addr) (a : Addr),
      chainF f h a l b → (a :: l).Nodup →
      (∀ y ∈ a :: l, y ≠ lastD l a → f (h' y) = f (h y)) →
      f (h' (lastD l a)) = some c →
      chainF f h' a l c := by
  intro l
  induction l with
  | nil =>
    intro a _ _ _ hlast
    exact hlast
  | cons x l ih =>
    intro a hc hnd hy hlast
    have hxl : lastD (x :: l) a = lastD l x := by
      unfold lastD
      cases hr : l.reverse with
      | nil => simp [List.reverse_cons, hr]
      | cons y t => simp [List.reverse_cons, hr]
    have hane : a ≠ lastD (x :: l) a := by
      rw [hxl]
      intro hcontra
      have : lastD l x ∈ x :: l := lastD_mem l x
      rw [← hcontra] at this
      exact (List.nodup_cons.mp hnd).1 this
    refine ⟨(hy a (List.mem_cons_self a _) hane).trans hc.1, ?_⟩
    rw [hxl] at hlast
    refine ih x hc.2 (List.nodup_cons.mp hnd).2 ?_ hlast
    intro y hmem hne
    refine hy y (List.mem_cons_of_mem a hmem) ?_
    rw [hxl]
    exact hne

theorem traverseFrom_chain {h : Heap} {hd : Addr} :
    ∀ (l : List Addr) (a : Addr) (fuel : Nat),
      chainF Link.next_ h a l hd → hd ∉ l → l.length < fuel →
      traverseFrom h hd fuel (l.headD hd) = l := by
  intro l
  induction l with
  | nil =>
    intro a fuel _ _ hf
    cases fuel with
    | zero => exact absurd hf (by simp)
    | succ f => simp [traverseFrom]
  | cons x l ih =>
    intro a fuel hc hmem hf
    cases fuel with
    | zero => exact absurd hf (by simp)
    | succ f =>
      have hxhd : x ≠ hd := by
        intro hcontra
        exact hmem (hcontra ▸ List.mem_cons_self x l)
      have hnx : (h x).next_ = some (l.headD hd) := chainF_head hc.2
      simp only [traverseFrom, List.headD_cons, hxhd, if_false, hnx]
      have := ih x f hc.2 (fun hmem2 => hmem (List.mem_cons_of_mem x hmem2))
        (Nat.lt_of_succ_lt_succ hf)
      rw [this]

theorem represents_uninitialized_false {h : Heap} {hd : Addr} {l : List Addr}
    (hr : represents h hd l) : uninitialized h hd = false := by
  have hnext : (h hd).next_ = some (l.headD hd) := chainF_head hr.1
  unfold uninitialized
  simp [hnext]

theorem represents_hd_prev {h : Heap} {hd : Addr} {l : List Addr}
    (hr : represents h hd l) : (h hd).previous_ = some (lastD l hd) :=
  chainF_head hr.2.1

theorem represents_linked {h : Heap} {hd : Addr} {l : List Addr}
    (hr : represents h hd l) : ∀ a ∈ hd :: l, (h a).linked = true := by
  intro a ha
  have hnext := chainF_sources_some _ hd hr.1 a ha
  have hprev : ((h a).previous_).isSome := by
    refine chainF_sources_some _ hd hr.2.1 a ?_
    rcases List.mem_cons.mp ha with rfl | ha
    · exact List.mem_cons_self a _
    · exact List.mem_cons_of_mem hd (List.mem_reverse.mpr ha)
  unfold Link.linked
  simp [hnext, hprev]

theorem visited_represents {h : Heap} {hd : Addr} {l : List Addr} {fuel : Nat}
    (hr : represents h hd l) (hf : l.length < fuel) :
    visited h hd fuel = l := by
  have hun := represents_uninitialized_false hr
  have hnext : (h hd).next_ = some (l.headD hd) := chainF_head hr.1
  have hnotmem : hd ∉ l := (List.nodup_cons.mp hr.2.2).1
  unfold visited begin
  simp only [hun, Bool.false_eq_true, if_false, hnext]
  exact traverseFrom_chain l hd fuel hr.1 hnotmem hf

theorem unlink_not_linked {h : Heap} {a : Addr}
    (hnl : (h a).previous_ = none ∨ (h a).next_ = none) :
    unlink h a = h := by
  rcases hnl with hp | hn
  · cases hn : (h a).next_ <;> simp [unlink, hp, hn]
  · cases hp : (h a).previous_ <;> simp [unlink, hp, hn]

theorem unlink_nullifies {h : Heap} {a p n : Addr}
    (hp : (h a).previous_ = some p) (hn : (h a).next_ = some n) :
    (unlink h a) a = ⟨none, none⟩ := by
  simp [unlink, hp, hn]

theorem Link.eq_of_fields {l1 l2 : Link} (hp : l1.previous_ = l2.previous_)
    (hn : l1.next_ = l2.next_) : l1 = l2 := by
  cases l1; cases l2; simp_all

theorem insert_after_fields {h : Heap} {node t b : Addr} (hnt : node ≠ t)
    (htb : (h t).next_ = some b) (hbn : b ≠ node) :
    ((insert_after h node t) t).next_ = some node ∧
    ((insert_after h node t) node).previous_ = some t ∧
    ((insert_after h node t) node).next_ = some b ∧
    ((insert_after h node t) b).previous_ = some node ∧
    (∀ x, x ≠ t → x ≠ node → ((insert_after h node t) x).next_ = (h x).next_) ∧
    (∀ x, x ≠ b → x ≠ node → ((insert_after h node t) x).previous_ = (h x).previous_) := by
  have htn : t ≠ node := Ne.symm hnt
  refine ⟨?_, ?_, ?_, ?_, ?_, ?_⟩
  · simp [insert_after, htn, htb]
  · simp [insert_after, htn, htb, hnt, Ne.symm hbn]
  · simp [insert_after, htn, htb, hbn, hnt]
  · by_cases hbt : b = t
    · subst hbt; simp [insert_after, htn, htb]
    · simp [insert_after, htn, htb, hbt]
  · intro x hx1 hx2
    simp [insert_after, htn, htb, hx1, hx2]
  · intro x hx1 hx2
    simp [insert_after, htn, htb, hx1, hx2]

theorem insert_after_frame {h : Heap} {node t b : Addr} (hnt : node ≠ t)
    (htb : (h t).next_ = some b) (hbn : b ≠ node) :
    ∀ x, x ≠ t → x ≠ node → x ≠ b → (insert_after h node t) x = h x := by
  intro x hx1 hx2 hx3
  obtain ⟨_, _, _, _, eN, eP⟩ := insert_after_fields hnt htb hbn
  exact Link.eq_of_fields (eP x hx3 hx2) (eN x hx1 hx2)

theorem unlink_fields {h : Heap} {a p n : Addr}
    (hp : (h a).previous_ = some p) (hn : (h a).next_ = some n)
    (hpa : p ≠ a) (hna : n ≠ a) :
    ((unlink h a) p).next_ = some n ∧
    ((unlink h a) n).previous_ = some p ∧
    (unlink h a) a = ⟨none, none⟩ ∧
    (∀ x, x ≠ p → x ≠ a → ((unlink h a) x).next_ = (h x).next_) ∧
    (∀ x, x ≠ n → x ≠ a → ((unlink h a) x).previous_ = (h x).previous_) := by
  have hap : a ≠ p := Ne.symm hpa
  have han : a ≠ n := Ne.symm hna
  refine ⟨?_, ?_, ?_, ?_, ?_⟩
  · simp [unlink, hp, hn, hap, hpa]
  · simp [unlink, hp, hn, hap, hna]
  · simp [unlink, hp, hn]
  · intro x hx1 hx2
    simp [unlink, hp, hn, hap, hx1, hx2]
  · intro x hx1 hx2
    simp [unlink, hp, hn, hap, hx1, hx2]

theorem unlink_frame {h : Heap} {a p n : Addr}
    (hp : (h a).previous_ = some p) (hn : (h a).next_ = some n)
    (hpa : p ≠ a) (hna : n ≠ a) :
    ∀ x, x ≠ p → x ≠ n → x ≠ a → (unlink h a) x = h x := by
  intro x hx1 hx2 hx3
  obtain ⟨_, _, _, eN, eP⟩ := unlink_fields hp hn hpa hna
  exact Link.eq_of_fields (eP x hx2 hx3) (eN x hx1 hx3)

theorem lastD_reverse (l : List Addr) (a : Addr) :
    lastD l.reverse a = l.headD a := by
  unfold lastD
  rw [List.reverse_reverse]

theorem represents_insert {h : Heap} {hd node : Addr} {l : List Addr}
    (hr : represents h hd l) (hnode : node ∉ hd :: l) :
    represents (insert_after h node (lastD l hd)) hd (l ++ [node]) := by
  have htmem : lastD l hd ∈ hd :: l := lastD_mem l hd
  have hnt : node ≠ lastD l hd := fun hc => hnode (hc ▸ htmem)
  have htb : (h (lastD l hd)).next_ = some hd := chainF_last l hd hr.1
  have hbn : hd ≠ node := fun hc => hnode (hc ▸ List.mem_cons_self hd l)
  obtain ⟨e1, e2, e3, e4, eN, eP⟩ := insert_after_fields hnt htb hbn
  have hnodehd : node ≠ hd := Ne.symm hbn
  refine ⟨?_, ?_, ?_⟩
  · refine (chainF_append l hd []).mpr ⟨?_, e3⟩
    refine chainF_update_last l hd hr.1 hr.2.2 ?_ e1
    intro y hy hyne
    refine eN y hyne (fun hc => hnode (hc ▸ hy))
  · rw [List.reverse_append, List.reverse_singleton, List.singleton_append]
    refine ⟨e4, ?_⟩
    cases hrev : l.reverse with
    | nil =>
      have hl : lastD l hd = hd := by unfold lastD; rw [hrev]; rfl
      show (insert_after h node (lastD l hd) node).previous_ = some hd
      rw [e2, hl]
    | cons p' r =>
      have hlast : lastD l hd = p' := by unfold lastD; rw [hrev]; rfl
      have hd2 : chainF Link.previous_ h p' r hd := by
        have := hr.2.1
        rw [hrev] at this
        exact this.2
      refine ⟨e2.trans (by rw [hlast]), ?_⟩
      refine chainF_congr r p' ?_ hd2
      intro y hy
      have hyl : y ∈ l := by
        have : y ∈ l.reverse := by rw [hrev]; exact hy
        exact List.mem_reverse.mp this
      refine eP y (fun hc => (List.nodup_cons.mp hr.2.2).1 (hc ▸ hyl))
        (fun hc => hnode (hc ▸ List.mem_cons_of_mem hd hyl))
  · have h1 : (hd :: l).Nodup := hr.2.2
    have : hd :: (l ++ [node]) = (hd :: l) ++ [node] := by simp
    rw [this, List.nodup_append]
    refine ⟨h1, List.nodup_singleton node, ?_⟩
    intro y hy hy2
    rw [List.mem_singleton] at hy2
    exact hnode (hy2 ▸ hy)

theorem represents_clear (h : Heap) (hd : Addr) : represents (clear h hd) hd [] := by
  refine ⟨?_, ?_, ?_⟩
  · show ((clear h hd) hd).next_ = some hd
    simp [clear]
  · show ((clear h hd) hd).previous_ = some hd
    simp [clear]
  · simp

theorem clear_frame (h : Heap) (hd : Addr) : ∀ x, x ≠ hd → clear h hd x = h x := by
  intro x hx
  simp [clear, Heap.setPrev, Heap.setNext, hx]

theorem link_eq_insert {h : Heap} {hd node : Addr} {l : List Addr}
    (hr : represents h hd l) :
    link h hd node = insert_after h node (lastD l hd) := by
  have hun := represents_uninitialized_false hr
  have hprev := represents_hd_prev hr
  unfold link tail
  simp [hun, hprev]

theorem represents_link {h : Heap} {hd node : Addr} {l : List Addr}
    (hr : represents h hd l) (hnode : node ∉ hd :: l) :
    represents (link h hd node) hd (l ++ [node]) := by
  rw [link_eq_insert hr]
  exact represents_insert hr hnode

theorem link_frame {h : Heap} {hd node : Addr} {l : List Addr}
    (hr : represents h hd l) (hnode : node ∉ hd :: l) :
    ∀ x, x ∉ hd :: l → x ≠ node → (link h hd node) x = h x := by
  intro x hx1 hx2
  rw [link_eq_insert hr]
  have htmem : lastD l hd ∈ hd :: l := lastD_mem l hd
  have hnt : node ≠ lastD l hd := fun hc => hnode (hc ▸ htmem)
  have htb : (h (lastD l hd)).next_ = some hd := chainF_last l hd hr.1
  have hbn : hd ≠ node := fun hc => hnode (hc ▸ List.mem_cons_self hd l)
  exact insert_after_frame hnt htb hbn x (fun hc => hx1 (hc ▸ htmem)) hx2
    (fun hc => hx1 (hc ▸ List.mem_cons_self hd l))

theorem uninitialized_of_null {h : Heap} {hd : Addr} (hh : h hd = ⟨none, none⟩) :
    uninitialized h hd = true := by
  simp [uninitialized, hh]

theorem link_eq_insert_uninit {h : Heap} {hd node : Addr}
    (hu : uninitialized h hd = true) :
    link h hd node = insert_after (clear h hd) node hd := by
  have hprev : ((clear h hd) hd).previous_ = some hd := by simp [clear]
  unfold link tail
  simp [hu, hprev]

theorem represents_link_uninit {h : Heap} {hd node : Addr}
    (hu : uninitialized h hd = true) (hne : node ≠ hd) :
    represents (link h hd node) hd [node] := by
  rw [link_eq_insert_uninit hu]
  have hc := represents_clear h hd
  have hnode : node ∉ hd :: ([] : List Addr) := by simp [hne]
  exact represents_insert hc hnode

theorem link_frame_uninit {h : Heap} {hd node : Addr}
    (hu : uninitialized h hd = true) :
    ∀ x, x ≠ hd → x ≠ node → (link h hd node) x = h x := by
  intro x hx1 hx2
  rw [link_eq_insert_uninit hu]
  have htb : ((clear h hd) hd).next_ = some hd := by simp [clear]
  by_cases hnh : node = hd
  · subst hnh
    simp [insert_after, clear, Heap.setNext, Heap.setPrev, Heap.write, hx1]
  · have := insert_after_frame (h := clear h hd) hnh htb (Ne.symm hnh) x hx1 hx2 hx1
    rw [this]
    exact clear_frame h hd x hx1

theorem headD_mem (l : List Addr) (d : Addr) : l.headD d ∈ d :: l := by
  cases l with
  | nil => simp
  | cons x t => simp

theorem represents_unlink {h : Heap} {hd a : Addr} {l1 l2 : List Addr}
    (hr : represents h hd (l1 ++ a :: l2)) :
    represents (unlink h a) hd (l1 ++ l2) := by
  obtain ⟨hnext, hprev, hnd⟩ := hr
  obtain ⟨c1, c2⟩ := (chainF_append l1 hd l2).mp hnext
  have hrevm : (l1 ++ a :: l2).reverse = l2.reverse ++ a :: l1.reverse := by
    simp
  rw [hrevm] at hprev
  obtain ⟨d1, d2⟩ := (chainF_append l2.reverse hd l1.reverse).mp hprev
  have han : (h a).next_ = some (l2.headD hd) := chainF_head c2
  have hap : (h a).previous_ = some (lastD l1 hd) := chainF_head d2
  rw [List.nodup_cons] at hnd
  obtain ⟨hhd, hnd2⟩ := hnd
  have hhd1 : hd ∉ l1 := fun hc => hhd (List.mem_append.mpr (Or.inl hc))
  have hhda : hd ≠ a := fun hc =>
    hhd (List.mem_append.mpr (Or.inr (hc ▸ List.mem_cons_self a l2)))
  have hhd2 : hd ∉ l2 := fun hc =>
    hhd (List.mem_append.mpr (Or.inr (List.mem_cons_of_mem a hc)))
  rw [List.nodup_append] at hnd2
  obtain ⟨hn1, hna2, hdisj0⟩ := hnd2
  rw [List.nodup_cons] at hna2
  obtain ⟨hanin2, hn2⟩ := hna2
  have hanin1 : a ∉ l1 := fun hc => hdisj0 hc (List.mem_cons_self a l2)
  have hdisj : ∀ x ∈ l1, x ∉ l2 := fun x hx hc =>
    hdisj0 hx (List.mem_cons_of_mem a hc)
  have hpa : lastD l1 hd ≠ a := by
    rcases List.mem_cons.mp (lastD_mem l1 hd) with hmem | hmem
    · exact fun hc => hhda (hmem.symm.trans hc)
    · exact fun hc => hanin1 (hc ▸ hmem)
  have hna : l2.headD hd ≠ a := by
    rcases List.mem_cons.mp (headD_mem l2 hd) with hmem | hmem
    · exact fun hc => hhda (hmem.symm.trans hc)
    · exact fun hc => hanin2 (hc ▸ hmem)
  obtain ⟨e1, e2, e3, eN, eP⟩ := unlink_fields hap han hpa hna
  have hndl1 : (hd :: l1).Nodup := List.nodup_cons.mpr ⟨hhd1, hn1⟩
  refine ⟨?_, ?_, ?_⟩
  · -- the next pointer cycle of the remaining nodes
    cases l2 with
    | nil =>
      rw [List.append_nil]
      refine chainF_update_last l1 hd c1 hndl1 ?_ (by simpa using e1)
      intro y hy hyne
      refine eN y hyne ?_
      rcases List.mem_cons.mp hy with rfl | hy2
      · exact hhda
      · exact fun hc => hanin1 (hc ▸ hy2)
    | cons x l2' =>
      refine (chainF_append l1 hd l2').mpr ⟨?_, ?_⟩
      · refine chainF_update_last l1 hd c1 hndl1 ?_ (by simpa using e1)
        intro y hy hyne
        refine eN y hyne ?_
        rcases List.mem_cons.mp hy with rfl | hy2
        · exact hhda
        · exact fun hc => hanin1 (hc ▸ hy2)
      · refine chainF_congr l2' x ?_ c2.2
        intro y hy
        refine eN y ?_ (fun hc => hanin2 (hc ▸ hy))
        rcases List.mem_cons.mp (lastD_mem l1 hd) with hmem | hmem
        · exact fun hc => hhd2 ((hc.trans hmem) ▸ hy)
        · exact fun hc => hdisj _ hmem (hc ▸ hy)
  · -- the previous pointer cycle of the remaining nodes
    rw [List.reverse_append]
    have hlastrev : lastD l2.reverse hd = l2.headD hd := lastD_reverse l2 hd
    have hndrev : (hd :: l2.reverse).Nodup :=
      List.nodup_cons.mpr ⟨fun hc => hhd2 (List.mem_reverse.mp hc),
        List.nodup_reverse.mpr hn2⟩
    have hframe1 : ∀ y ∈ hd :: l2.reverse, y ≠ lastD l2.reverse hd →
        ((unlink h a) y).previous_ = (h y).previous_ := by
      intro y hy hyne
      rw [hlastrev] at hyne
      refine eP y hyne ?_
      rcases List.mem_cons.mp hy with rfl | hy2
      · exact hhda
      · exact fun hc => hanin2 (hc ▸ List.mem_reverse.mp hy2)
    cases hrev1 : l1.reverse with
    | nil =>
      have hl1 : lastD l1 hd = hd := by unfold lastD; rw [hrev1]; rfl
      rw [List.append_nil]
      refine chainF_update_last l2.reverse hd d1 hndrev hframe1 ?_
      rw [hlastrev, e2, hl1]
    | cons p' r =>
      have hl1 : lastD l1 hd = p' := by unfold lastD; rw [hrev1]; rfl
      refine (chainF_append l2.reverse hd r).mpr ⟨?_, ?_⟩
      · refine chainF_update_last l2.reverse hd d1 hndrev hframe1 ?_
        rw [hlastrev, e2, hl1]
      · have d2' : chainF Link.previous_ h p' r hd := by
          rw [hrev1] at d2
          exact d2.2
        refine chainF_congr r p' ?_ d2'
        intro y hy
        have hyl1 : y ∈ l1 := by
          refine List.mem_reverse.mp ?_
          rw [hrev1]
          exact hy
        refine eP y ?_ (fun hc => hanin1 (hc ▸ hyl1))
        rcases List.mem_cons.mp (headD_mem l2 hd) with hmem | hmem
        · exact fun hc => hhd1 ((hc.trans hmem) ▸ hyl1)
        · exact fun hc => hdisj y hyl1 (hc ▸ hmem)
  · -- distinctness survives the removal
    have hsub : List.Sublist (hd :: (l1 ++ l2)) (hd :: (l1 ++ a :: l2)) := by
      refine List.Sublist.cons₂ hd ?_
      exact List.Sublist.append_left (List.sublist_cons_self a l2) l1
    refine List.Sublist.nodup hsub ?_
    rw [List.nodup_cons, List.nodup_append]
    exact ⟨hhd, hn1, List.nodup_cons.mpr ⟨hanin2, hn2⟩, hdisj0⟩

theorem represents_neighbors {h : Heap} {hd a : Addr} {l1 l2 : List Addr}
    (hr : represents h hd (l1 ++ a :: l2)) :
    (h a).previous_ = some (lastD l1 hd) ∧ (h a).next_ = some (l2.headD hd) ∧
      lastD l1 hd ≠ a ∧ l2.headD hd ≠ a ∧
      lastD l1 hd ∈ hd :: l1 ∧ l2.headD hd ∈ hd :: l2 := by
  obtain ⟨hnext, hprev, hnd⟩ := hr
  obtain ⟨c1, c2⟩ := (chainF_append l1 hd l2).mp hnext
  have hrevm : (l1 ++ a :: l2).reverse = l2.reverse ++ a :: l1.reverse := by
    simp
  rw [hrevm] at hprev
  obtain ⟨d1, d2⟩ := (chainF_append l2.reverse hd l1.reverse).mp hprev
  have han : (h a).next_ = some (l2.headD hd) := chainF_head c2
  have hap : (h a).previous_ = some (lastD l1 hd) := chainF_head d2
  rw [List.nodup_cons] at hnd
  obtain ⟨hhd, hnd2⟩ := hnd
  have hhda : hd ≠ a := fun hc =>
    hhd (List.mem_append.mpr (Or.inr (hc ▸ List.mem_cons_self a l2)))
  rw [List.nodup_append] at hnd2
  obtain ⟨_, hna2, hdisj0⟩ := hnd2
  rw [List.nodup_cons] at hna2
  have hanin1 : a ∉ l1 := fun hc => hdisj0 hc (List.mem_cons_self a l2)
  have hpa : lastD l1 hd ≠ a := by
    rcases List.mem_cons.mp (lastD_mem l1 hd) with hmem | hmem
    · exact fun hc => hhda (hmem.symm.trans hc)
    · exact fun hc => hanin1 (hc ▸ hmem)
  have hna : l2.headD hd ≠ a := by
    rcases List.mem_cons.mp (headD_mem l2 hd) with hmem | hmem
    · exact fun hc => hhda (hmem.symm.trans hc)
    · exact fun hc => hna2.1 (hc ▸ hmem)
  exact ⟨hap, han, hpa, hna, lastD_mem l1 hd, headD_mem l2 hd⟩

theorem visited_uninit {h : Heap} {hd : Addr} (hh : h hd = ⟨none, none⟩)
    {fuel : Nat} (hf : 0 < fuel) : visited h hd fuel = [] := by
  have hu : uninitialized h hd = true := uninitialized_of_null hh
  have hnext : ((clear h hd) hd).next_ = some hd := by simp [clear]
  unfold visited begin
  simp only [hu, if_true, hnext]
  cases fuel with
  | zero => exact absurd hf (by simp)
  | succ f => simp [traverseFrom]

theorem exec_invariant {hd : Addr} {S : List Addr} (hhd : hd ∉ S) :
    ∀ (ops : List Op) (h : Heap) (model : List Addr),
      (∀ b ∈ model, b ∈ S) →
      (∀ b ∈ S, b ∉ model → h b = ⟨none, none⟩) →
      (represents h hd model ∨ (model = [] ∧ h hd = ⟨none, none⟩)) →
      validOps hd S h ops →
      ∃ model', (∀ b ∈ model', b ∈ S) ∧
        (∀ b ∈ S, b ∉ model' → execOps hd h ops b = ⟨none, none⟩) ∧
        (represents (execOps hd h ops) hd model' ∨
          (model' = [] ∧ execOps hd h ops hd = ⟨none, none⟩)) := by
  intro ops
  induction ops with
  | nil =>
    intro h model hsub hnull hinv _
    exact ⟨model, hsub, hnull, hinv⟩
  | cons op ops ih =>
    intro h model hsub hnull hinv hvalid
    obtain ⟨⟨hmem, hpre⟩, hvalid'⟩ := hvalid
    show ∃ model', (∀ b ∈ model', b ∈ S) ∧
      (∀ b ∈ S, b ∉ model' → execOps hd (execOp hd h op) ops b = ⟨none, none⟩) ∧
      (represents (execOps hd (execOp hd h op) ops) hd model' ∨
        (model' = [] ∧ execOps hd (execOp hd h op) ops hd = ⟨none, none⟩))
    cases op with
    | linkTail b =>
      have hbS : b ∈ S := hmem
      have hbhd : b ≠ hd := fun hc => hhd (hc ▸ hbS)
      have hprecond : h b = ⟨none, none⟩ := hpre
      rcases hinv with hrep | ⟨hm0, hun⟩
      · have hbnotm : b ∉ model := by
          intro hc
          have hl := represents_linked hrep b (List.mem_cons_of_mem hd hc)
          rw [hprecond] at hl
          simp [Link.linked] at hl
        have hbnot : b ∉ hd :: model := by
          intro hc
          rcases List.mem_cons.mp hc with hc2 | hc2
          · exact hbhd hc2
          · exact hbnotm hc2
        refine ih (execOp hd h (.linkTail b)) (model ++ [b]) ?_ ?_
          (Or.inl (represents_link hrep hbnot)) hvalid'
        · intro c hc
          rcases List.mem_append.mp hc with hc2 | hc2
          · exact hsub c hc2
          · rw [List.mem_singleton] at hc2
            exact hc2 ▸ hbS
        · intro c hcS hcm
          have hcb : c ≠ b := fun hc2 => hcm (hc2 ▸ List.mem_append.mpr
            (Or.inr (List.mem_singleton.mpr rfl)))
          have hcmodel : c ∉ model := fun hc2 =>
            hcm (List.mem_append.mpr (Or.inl hc2))
          have hchd : c ≠ hd := fun hc2 => hhd (hc2 ▸ hcS)
          have hcnot : c ∉ hd :: model := by
            intro hc2
            rcases List.mem_cons.mp hc2 with hc3 | hc3
            · exact hchd hc3
            · exact hcmodel hc3
          show (link h hd b) c = ⟨none, none⟩
          rw [link_frame hrep hbnot c hcnot hcb]
          exact hnull c hcS hcmodel
      · subst hm0
        have hu : uninitialized h hd = true := uninitialized_of_null hun
        refine ih (execOp hd h (.linkTail b)) [b] ?_ ?_
          (Or.inl (represents_link_uninit hu hbhd)) hvalid'
        · intro c hc
          rw [List.mem_singleton] at hc
          exact hc ▸ hbS
        · intro c hcS hcm
          rw [List.mem_singleton] at hcm
          have hchd : c ≠ hd := fun hc2 => hhd (hc2 ▸ hcS)
          show (link h hd b) c = ⟨none, none⟩
          rw [link_frame_uninit hu c hchd hcm]
          exact hnull c hcS (by simp)
    | unlinkNode b =>
      have hbS : b ∈ S := hmem
      have hbhd : b ≠ hd := fun hc => hhd (hc ▸ hbS)
      rcases hinv with hrep | ⟨hm0, hun⟩
      · by_cases hbm : b ∈ model
        · obtain ⟨l1, l2, rfl⟩ := List.append_of_mem hbm
          obtain ⟨hp, hn, hpa, hna, hpmem, hnmem⟩ := represents_neighbors hrep
          have hrep' := represents_unlink hrep
          refine ih (execOp hd h (.unlinkNode b)) (l1 ++ l2) ?_ ?_
            (Or.inl hrep') hvalid'
          · intro c hc
            refine hsub c ?_
            rcases List.mem_append.mp hc with hc2 | hc2
            · exact List.mem_append.mpr (Or.inl hc2)
            · exact List.mem_append.mpr (Or.inr (List.mem_cons_of_mem b hc2))
          · intro c hcS hcm
            show (unlink h b) c = ⟨none, none⟩
            by_cases hcb : c = b
            · subst hcb
              exact unlink_nullifies hp hn
            · have hchd : c ≠ hd := fun hc2 => hhd (hc2 ▸ hcS)
              have hcmodel : c ∉ l1 ++ b :: l2 := by
                intro hc2
                rcases List.mem_append.mp hc2 with hc3 | hc3
                · exact hcm (List.mem_append.mpr (Or.inl hc3))
                · rcases List.mem_cons.mp hc3 with hc4 | hc4
                  · exact hcb hc4
                  · exact hcm (List.mem_append.mpr (Or.inr hc4))
              have hcp : c ≠ lastD l1 hd := by
                intro hc2
                rcases List.mem_cons.mp hpmem with hc3 | hc3
                · exact hchd (hc2.trans hc3)
                · exact hcmodel (List.mem_append.mpr (Or.inl (hc2 ▸ hc3)))
              have hcn : c ≠ l2.headD hd := by
                intro hc2
                rcases List.mem_cons.mp hnmem with hc3 | hc3
                · exact hchd (hc2.trans hc3)
                · exact hcmodel (List.mem_append.mpr
                    (Or.inr (List.mem_cons_of_mem b (hc2 ▸ hc3))))
              rw [unlink_frame hp hn hpa hna c hcp hcn hcb]
              exact hnull c hcS hcmodel
        · have hb0 : h b = ⟨none, none⟩ := hnull b hbS hbm
          have hnop : execOp hd h (Op.unlinkNode b) = h := by
            show unlink h b = h
            refine unlink_not_linked (Or.inl ?_)
            rw [hb0]
          rw [hnop]
          exact ih h model hsub hnull (Or.inl hrep) (hnop ▸ hvalid')
      · subst hm0
        have hb0 : h b = ⟨none, none⟩ := hnull b hbS (by simp)
        have hnop : execOp hd h (Op.unlinkNode b) = h := by
          show unlink h b = h
          refine unlink_not_linked (Or.inl ?_)
          rw [hb0]
        rw [hnop]
        exact ih h [] hsub hnull (Or.inr ⟨rfl, hun⟩) (hnop ▸ hvalid')

theorem linkedCount_represents {h : Heap} {hd : Addr} {S model : List Addr}
    (hS : S.Nodup) (hrep : represents h hd model)
    (hsub : ∀ b ∈ model, b ∈ S)
    (hnull : ∀ b ∈ S, b ∉ model → h b = ⟨none, none⟩) :
    linkedCount h S = model.length := by
  unfold linkedCount
  have hmodnd : model.Nodup := (List.nodup_cons.mp hrep.2.2).2
  have hfil : S.filter (fun a => (h a).linked)
      = S.filter (fun a => decide (a ∈ model)) := by
    refine List.filter_congr ?_
    intro c hc
    by_cases hcm : c ∈ model
    · simp [hcm, represents_linked hrep c (List.mem_cons_of_mem hd hcm)]
    · simp [hcm, hnull c hc hcm, Link.linked]
  rw [hfil]
  have hperm : (S.filter (fun a => decide (a ∈ model))).Perm model := by
    refine (List.perm_ext_iff_of_nodup (List.Nodup.filter _ hS) hmodnd).mpr ?_
    intro c
    simp only [List.mem_filter, decide_eq_true_eq]
    exact ⟨fun hc => hc.2, fun hc => ⟨hsub c hc, hc⟩⟩
  exact hperm.length_eq

theorem linkedCount_all_null {h : Heap} {S : List Addr}
    (hnull : ∀ b ∈ S, h b = ⟨none, none⟩) : linkedCount h S = 0 := by
  unfold linkedCount
  have hfil : S.filter (fun a => (h a).linked) = [] := by
    refine List.filter_eq_nil_iff.mpr ?_
    intro c hc
    simp [hnull c hc, Link.linked]
  rw [hfil]
  rfl

theorem unlink_frame_general {h : Heap} {a p n : Addr}
    (hp : (h a).previous_ = some p) (hn : (h a).next_ = some n) :
    ∀ x, x ≠ p → x ≠ n → x ≠ a → (unlink h a) x = h x := by
  intro x hx1 hx2 hx3
  by_cases hap : a = p
  · subst hap
    simp [unlink, hp, hn, nullify, Heap.setNext, Heap.setPrev, Heap.write,
      hx1, hx2, hx3]
  · simp [unlink, hp, hn, nullify, Heap.setNext, Heap.setPrev, Heap.write,
      hap, hx1, hx2, hx3]

theorem represents_self (h : Heap) (hd : Addr)
    (hs : h hd = ⟨some hd, some hd⟩) : represents h hd [] := by
  refine ⟨?_, ?_, ?_⟩
  · show (h hd).next_ = some hd
    rw [hs]
  · show (h hd).previous_ = some hd
    rw [hs]
  · simp

/-- Claim C1, counterexample: the claim asserts that after the first call
to `empty()` an uninitialized static list transitions to the initialized
state with `uninitialized() == false`. In the source `empty()` is a const
member (lists.cpp:132) that performs no initialisation, so it is a pure
observer of the heap: on the zero initialised list it returns true, yet
the list state is unchanged and `uninitialized()` still returns true
afterwards, contradicting the claimed transition. -/
theorem claim_C1_counterexample :
    empty zeroHeap 0 = true ∧ uninitialized zeroHeap 0 = true := by
  constructor
  · rfl
  · rfl

/-- Claim C1 (amended): for a zero initialised static list,
`uninitialized()` returns true and `empty()` returns true; `empty()` is
const and does not change the state; after the first call to `begin()`
the list is in the initialized empty state: `uninitialized()` returns
false and `empty()` returns true. -/
theorem claim_C1 (h : Heap) (hd : Addr) (hh : h hd = ⟨none, none⟩) :
    uninitialized h hd = true ∧
    empty h hd = true ∧
    uninitialized (begin h hd).1 hd = false ∧
    empty (begin h hd).1 hd = true := by
  have hu : uninitialized h hd = true := uninitialized_of_null hh
  refine ⟨hu, ?_, ?_, ?_⟩
  · simp [empty, hu]
  · unfold begin
    rw [hu]
    simp [uninitialized, clear]
  · unfold begin
    rw [hu]
    simp [empty, clear]

/-- Claim C1, witness: the amended statement evaluated on the all zero
heap with the list head at address 0. -/
theorem claim_C1_witness :
    uninitialized zeroHeap 0 = true ∧
    empty zeroHeap 0 = true ∧
    uninitialized (begin zeroHeap 0).1 0 = false ∧
    empty (begin zeroHeap 0).1 0 = true :=
  claim_C1 zeroHeap 0 rfl

/-- Claim C3: calling `unlink` twice on the same node leaves exactly the
heap produced by calling it once; in particular `unlink` on an already
unlinked node is a no-op. The statement holds for every heap and every
node, with no precondition. -/
theorem claim_C3 (h : Heap) (a : Addr) :
    unlink (unlink h a) a = unlink h a := by
  cases hp : (h a).previous_ with
  | none =>
    have hnop : unlink h a = h := unlink_not_linked (Or.inl hp)
    rw [hnop]
    exact hnop
  | some p =>
    cases hn : (h a).next_ with
    | none =>
      have hnop : unlink h a = h := unlink_not_linked (Or.inr hn)
      rw [hnop]
      exact hnop
    | some n =>
      have hnull : (unlink h a) a = ⟨none, none⟩ := unlink_nullifies hp hn
      refine unlink_not_linked (Or.inl ?_)
      rw [hnull]

/-- Claim C4, counterexample: a node whose two pointers point at itself
(exactly the state of the sentinel of an empty cleared list, reachable
through the public API) has both pointers non null, so the claim applies
to it; yet after `unlink` its former predecessor, the node itself, does
not point at its former successor, since `unlink` nullifies the node. -/
theorem claim_C4_counterexample :
    ((zeroHeap.write 1 ⟨some 1, some 1⟩) 1).linked = true ∧
    ((unlink (zeroHeap.write 1 ⟨some 1, some 1⟩) 1) 1).next_ ≠ some 1 := by
  constructor
  · rfl
  · intro hc
    exact Option.noConfusion hc

/-- Claim C4 (amended): for every linked static node whose predecessor
and successor are both distinct from the node itself, `unlink` makes the
former predecessor and successor point at each other, and afterwards the
node's own pointers are both null, so `linked` on the node returns
false. -/
theorem claim_C4 (h : Heap) (a p n : Addr)
    (hp : (h a).previous_ = some p) (hn : (h a).next_ = some n)
    (hpa : p ≠ a) (hna : n ≠ a) :
    ((unlink h a) p).next_ = some n ∧
    ((unlink h a) n).previous_ = some p ∧
    (unlink h a) a = ⟨none, none⟩ ∧
    ((unlink h a) a).linked = false := by
  obtain ⟨e1, e2, e3, _, _⟩ := unlink_fields hp hn hpa hna
  refine ⟨e1, e2, e3, ?_⟩
  rw [e3]
  rfl

/-- Claim C4, witness: the amended statement evaluated on a two node
cycle, sentinel at address 0 and element at address 1. -/
theorem claim_C4_witness :
    ((unlink ((zeroHeap.write 0 ⟨some 1, some 1⟩).write 1 ⟨some 0, some 0⟩) 1) 0).next_
        = some 0 ∧
    ((unlink ((zeroHeap.write 0 ⟨some 1, some 1⟩).write 1 ⟨some 0, some 0⟩) 1) 0).previous_
        = some 0 ∧
    (unlink ((zeroHeap.write 0 ⟨some 1, some 1⟩).write 1 ⟨some 0, some 0⟩) 1) 1
        = ⟨none, none⟩ ∧
    ((unlink ((zeroHeap.write 0 ⟨some 1, some 1⟩).write 1 ⟨some 0, some 0⟩) 1) 1).linked
        = false :=
  claim_C4 ((zeroHeap.write 0 ⟨some 1, some 1⟩).write 1 ⟨some 0, some 0⟩) 1 0 0
    rfl rfl (by decide) (by decide)

/-- Claim C10: `unlink` on a node modifies at most the node itself, its
predecessor and its successor: every address that is distinct from the
node and is pointed at by neither of the node's two pointers holds
exactly the same link record afterwards. -/
theorem claim_C10 (h : Heap) (a x : Addr) (hxa : x ≠ a)
    (hxp : (h a).previous_ ≠ some x) (hxn : (h a).next_ ≠ some x) :
    (unlink h a) x = h x := by
  cases hp : (h a).previous_ with
  | none => rw [unlink_not_linked (Or.inl hp)]
  | some p =>
    cases hn : (h a).next_ with
    | none => rw [unlink_not_linked (Or.inr hn)]
    | some n =>
      have hxp' : x ≠ p := by
        intro hc
        rw [hp, hc] at hxp
        exact hxp rfl
      have hxn' : x ≠ n := by
        intro hc
        rw [hn, hc] at hxn
        exact hxn rfl
      exact unlink_frame_general hp hn x hxp' hxn' hxa

/-- Claim C10, witness: on a two node cycle, unlinking the element at
address 1 leaves the record of the unrelated address 5 unchanged. -/
theorem claim_C10_witness :
    (unlink ((zeroHeap.write 0 ⟨some 1, some 1⟩).write 1 ⟨some 0, some 0⟩) 1) 5
      = ((zeroHeap.write 0 ⟨some 1, some 1⟩).write 1 ⟨some 0, some 0⟩) 5 :=
  claim_C10 ((zeroHeap.write 0 ⟨some 1, some 1⟩).write 1 ⟨some 0, some 0⟩) 1 5
    (by decide) (by decide) (by decide)

/-- Claim C2: starting from an empty list (either still uninitialized or
already cleared), linking three distinct unlinked nodes A, B, C at the
tail with `link` and then iterating from `begin ()` to `end ()` visits
the nodes exactly in the order A, B, C. -/
theorem claim_C2 (h : Heap) (hd A B C : Addr)
    (hAB : A ≠ B) (hAC : A ≠ C) (hBC : B ≠ C)
    (hAhd : A ≠ hd) (hBhd : B ≠ hd) (hChd : C ≠ hd)
    (hA : h A = ⟨none, none⟩) (hB : h B = ⟨none, none⟩)
    (hC : h C = ⟨none, none⟩)
    (hempty : h hd = ⟨none, none⟩ ∨ h hd = ⟨some hd, some hd⟩) :
    visited (link (link (link h hd A) hd B) hd C) hd 4 = [A, B, C] := by
  have step1 : represents (link h hd A) hd [A] := by
    rcases hempty with hz | hs
    · exact represents_link_uninit (uninitialized_of_null hz) hAhd
    · have hr0 := represents_self h hd hs
      exact represents_link hr0 (by simp [hAhd])
  have hBnot : B ∉ hd :: [A] := by
    simp [hBhd, Ne.symm hAB]
  have step2 : represents (link (link h hd A) hd B) hd [A, B] :=
    represents_link step1 hBnot
  have hCnot : C ∉ hd :: [A, B] := by
    simp [hChd, Ne.symm hAC, Ne.symm hBC]
  have step3 : represents (link (link (link h hd A) hd B) hd C) hd [A, B, C] :=
    represents_link step2 hCnot
  exact visited_represents step3 (by simp)

/-- Claim C2, witness: three nodes at addresses 1, 2, 3 linked at the
tail of the zero initialised list anchored at address 0. -/
theorem claim_C2_witness :
    visited (link (link (link zeroHeap 0 1) 0 2) 0 3) 0 4 = [1, 2, 3] :=
  claim_C2 zeroHeap 0 1 2 3 (by decide) (by decide) (by decide) (by decide)
    (by decide) (by decide) rfl rfl rfl (Or.inl rfl)

/-- Claim C5: linking a node that is already linked (at least one pointer
non null) makes the assertions of the insertion path fail; under the
precondition that the node's two pointers are null, and for a list in a
reachable state (uninitialized, or representing some node sequence not
containing the new node), every assertion of the insertion path
passes. -/
theorem claim_C5 :
    (∀ (h : Heap) (hd node : Addr), node ≠ hd →
      ((h node).previous_ ≠ none ∨ (h node).next_ ≠ none) →
      link_assert_ok h hd node = false) ∧
    (∀ (h : Heap) (hd node : Addr) (l : List Addr),
      h node = ⟨none, none⟩ → node ≠ hd →
      (uninitialized h hd = true ∨ (represents h hd l ∧ node ∉ hd :: l)) →
      link_assert_ok h hd node = true) := by
  constructor
  · intro h hd node hne hdisj
    by_cases hu : uninitialized h hd = true
    · have heq : link_assert_ok h hd node
          = insert_after_assert_ok (clear h hd) node hd := by
        unfold link_assert_ok tail
        simp [hu, clear]
      rw [heq]
      unfold insert_after_assert_ok
      rw [clear_frame h hd node hne]
      rcases hdisj with hP | hN
      · obtain ⟨v, hv⟩ := Option.ne_none_iff_exists'.mp hP
        simp [hv]
      · obtain ⟨v, hv⟩ := Option.ne_none_iff_exists'.mp hN
        simp [hv]
    · cases htl : (h hd).previous_ with
      | none =>
        unfold link_assert_ok tail
        simp [hu, htl]
      | some t =>
        have heq : link_assert_ok h hd node
            = insert_after_assert_ok h node t := by
          unfold link_assert_ok tail
          simp [hu, htl]
        rw [heq]
        unfold insert_after_assert_ok
        rcases hdisj with hP | hN
        · obtain ⟨v, hv⟩ := Option.ne_none_iff_exists'.mp hP
          simp [hv]
        · obtain ⟨v, hv⟩ := Option.ne_none_iff_exists'.mp hN
          simp [hv]
  · intro h hd node l hnode hne hcase
    rcases hcase with hu | ⟨hrep, hnotin⟩
    · have heq : link_assert_ok h hd node
          = insert_after_assert_ok (clear h hd) node hd := by
        unfold link_assert_ok tail
        simp [hu, clear]
      rw [heq]
      unfold insert_after_assert_ok
      rw [clear_frame h hd node hne, hnode]
      simp [clear]
    · have hu := represents_uninitialized_false hrep
      have hprev := represents_hd_prev hrep
      have heq : link_assert_ok h hd node
          = insert_after_assert_ok h node (lastD l hd) := by
        unfold link_assert_ok tail
        simp [hu, hprev]
      rw [heq]
      unfold insert_after_assert_ok
      rw [hnode]
      have htb : (h (lastD l hd)).next_ = some hd := chainF_last l hd hrep.1
      simp [htb]

/-- Claim C5, witness: linking the already linked node 1 into the list at
head 0 fails the assertions, while linking node 1 with both pointers null
into the zero initialised list passes them. -/
theorem claim_C5_witness :
    link_assert_ok (zeroHeap.write 1 ⟨some 0, some 0⟩) 0 1 = false ∧
    link_assert_ok zeroHeap 0 1 = true :=
  ⟨claim_C5.1 (zeroHeap.write 1 ⟨some 0, some 0⟩) 0 1 (by decide)
      (Or.inl (by decide)),
    claim_C5.2 zeroHeap 0 1 [] rfl (by decide) (Or.inl rfl)⟩

/-- Claim C7: a freshly constructed dynamic list is empty, destroying a
dynamic list while elements are still linked into it fails the
destructor's assertion, and destroying an empty dynamic list passes
it. -/
theorem claim_C7 :
    (∀ (h : Heap) (hd : Addr),
      empty (double_list_construct h hd) hd = true) ∧
    (∀ (h : Heap) (hd x : Addr) (l : List Addr), represents h hd (x :: l) →
      destruct_assert_ok h hd = false) ∧
    (∀ (h : Heap) (hd : Addr), empty h hd = true →
      destruct_assert_ok h hd = true) := by
  refine ⟨?_, ?_, ?_⟩
  · intro h hd
    simp [empty, double_list_construct, clear]
  · intro h hd x l hr
    have hnext : (h hd).next_ = some x := by
      have := chainF_head hr.1
      simpa using this
    have hun : uninitialized h hd = false := represents_uninitialized_false hr
    have hxhd : x ≠ hd := by
      have hnd := hr.2.2
      rw [List.nodup_cons] at hnd
      exact fun hc => hnd.1 (hc ▸ List.mem_cons_self x l)
    unfold destruct_assert_ok empty
    simp [hnext, hun, hxhd]
  · intro h hd he
    exact he

/-- Claim C7, witness: the freshly constructed dynamic list at head 0 is
empty and passes the destructor's assertion; a one element list (element
at address 1) fails it. -/
theorem claim_C7_witness :
    empty (double_list_construct zeroHeap 0) 0 = true ∧
    destruct_assert_ok
      ((zeroHeap.write 0 ⟨some 1, some 1⟩).write 1 ⟨some 0, some 0⟩) 0 = false ∧
    destruct_assert_ok (double_list_construct zeroHeap 0) 0 = true :=
  ⟨claim_C7.1 zeroHeap 0,
    claim_C7.2.1 ((zeroHeap.write 0 ⟨some 1, some 1⟩).write 1 ⟨some 0, some 0⟩)
      0 1 [] ⟨⟨rfl, rfl⟩, ⟨rfl, rfl⟩, by decide⟩,
    claim_C7.2.2 (double_list_construct zeroHeap 0) 0 (claim_C7.1 zeroHeap 0)⟩

/-- Claim C8: linking the owning object placed at address `o`, whose
embedded link member sits at offset `off`, into an empty intrusive list
and dereferencing the resulting `begin ()` iterator through
`get_pointer` recovers exactly the owner's address `o`, for every offset
`off` and every owner address `o`. -/
theorem claim_C8 (h : Heap) (hd : Addr) (off o : Nat)
    (hempty : h hd = ⟨none, none⟩ ∨ h hd = ⟨some hd, some hd⟩)
    (hne : member_addr o off ≠ hd) :
    (begin (intrusive_link_tail h hd off o) hd).2 = some (member_addr o off) ∧
    Option.map (get_pointer off) (begin (intrusive_link_tail h hd off o) hd).2
      = some o := by
  have hrep : represents (link h hd (member_addr o off)) hd [member_addr o off] := by
    rcases hempty with hz | hs
    · exact represents_link_uninit (uninitialized_of_null hz) hne
    · have hr0 := represents_self h hd hs
      exact represents_link hr0 (by simp [hne])
  have hun := represents_uninitialized_false hrep
  have hnext : ((link h hd (member_addr o off)) hd).next_
      = some (member_addr o off) := by
    have := chainF_head hrep.1
    simpa using this
  have h2 : (begin (intrusive_link_tail h hd off o) hd).2
      = some (member_addr o off) := by
    unfold intrusive_link_tail begin
    rw [hun]
    simpa using hnext
  refine ⟨h2, ?_⟩
  rw [h2]
  simp [get_pointer, member_addr]

/-- Claim C8, witness: owner at address 3 with its link member at offset
4 (member address 7), linked into the zero initialised list at head 0:
the iterator recovers address 3 exactly. -/
theorem claim_C8_witness :
    (begin (intrusive_link_tail zeroHeap 0 4 3) 0).2 = some (member_addr 3 4) ∧
    Option.map (get_pointer 4) (begin (intrusive_link_tail zeroHeap 0 4 3) 0).2
      = some 3 :=
  claim_C8 zeroHeap 0 4 3 (Or.inl rfl) (by decide)

/-- Claim C6: for every finite sequence of tail link and unlink
operations that starts from an empty list (uninitialized or cleared) and
respects the documented preconditions (operations address element nodes
from a universe `S` disjoint from the sentinel, initially all unlinked;
a node being linked is unlinked at that moment), the number of nodes
visited by a full iteration from `begin ()` to `end ()` equals the
number of currently linked nodes. Every prefix of a valid sequence is
itself a valid sequence, so the equality holds after each operation. -/
theorem claim_C6 (hd : Addr) (S : List Addr) (h0 : Heap) (ops : List Op)
    (hS : S.Nodup) (hhd : hd ∉ S)
    (hinit : ∀ b ∈ S, h0 b = ⟨none, none⟩)
    (hempty : h0 hd = ⟨none, none⟩ ∨ h0 hd = ⟨some hd, some hd⟩)
    (hvalid : validOps hd S h0 ops) :
    (visited (execOps hd h0 ops) hd (S.length + 1)).length
      = linkedCount (execOps hd h0 ops) S := by
  have hinv0 : represents h0 hd [] ∨
      (([] : List Addr) = [] ∧ h0 hd = ⟨none, none⟩) := by
    rcases hempty with hz | hs
    · exact Or.inr ⟨rfl, hz⟩
    · exact Or.inl (represents_self h0 hd hs)
  obtain ⟨model', hsub', hnull', hinv'⟩ := exec_invariant hhd ops h0 []
    (by simp) (fun b hb _ => hinit b hb) hinv0 hvalid
  rcases hinv' with hrep | ⟨hm0, hun⟩
  · have hcount := linkedCount_represents hS hrep hsub' hnull'
    have hlen : model'.length < S.length + 1 := by
      have hle : model'.length ≤ S.length := by
        rw [← hcount]
        exact List.length_filter_le _ S
      omega
    rw [visited_represents hrep hlen, hcount]
  · subst hm0
    rw [visited_uninit hun (Nat.succ_pos _),
      linkedCount_all_null (fun b hb => hnull' b hb (by simp))]
    rfl

/-- Claim C6, witness: linking nodes 1 and 2 at the tail of the zero
initialised list at head 0 and unlinking node 1 again: the iteration
visits as many nodes as are linked. -/
theorem claim_C6_witness :
    (visited (execOps 0 zeroHeap
        [Op.linkTail 1, Op.linkTail 2, Op.unlinkNode 1]) 0
        (([1, 2] : List Addr).length + 1)).length
      = linkedCount (execOps 0 zeroHeap
        [Op.linkTail 1, Op.linkTail 2, Op.unlinkNode 1]) [1, 2] :=
  claim_C6 0 [1, 2] zeroHeap [Op.linkTail 1, Op.linkTail 2, Op.unlinkNode 1]
    (by decide) (by decide) (by decide) (Or.inl rfl)
    ⟨⟨by decide, by decide⟩, ⟨by decide, by decide⟩, ⟨by decide, trivial⟩,
      trivial⟩

/-- Claim C9: in every state reachable by valid list operations from an
empty list, every node (the sentinel and every element of the node
universe) has either both pointers null or both pointers non null, so
the half linked state is unreachable; and whenever `linked` returns
false its assertions pass exactly when both pointers are null. -/
theorem claim_C9 :
    (∀ (hd : Addr) (S : List Addr) (h0 : Heap) (ops : List Op),
      hd ∉ S → (∀ b ∈ S, h0 b = ⟨none, none⟩) →
      (h0 hd = ⟨none, none⟩ ∨ h0 hd = ⟨some hd, some hd⟩) →
      validOps hd S h0 ops →
      ∀ b ∈ hd :: S,
        execOps hd h0 ops b = ⟨none, none⟩ ∨
        (∃ p n, (execOps hd h0 ops b).previous_ = some p ∧
          (execOps hd h0 ops b).next_ = some n)) ∧
    (∀ l : Link, l.linked = false →
      (l.linked_assert_ok = true ↔ l = ⟨none, none⟩)) := by
  constructor
  · intro hd S h0 ops hhd hinit hempty hvalid b hb
    have hinv0 : represents h0 hd [] ∨
        (([] : List Addr) = [] ∧ h0 hd = ⟨none, none⟩) := by
      rcases hempty with hz | hs
      · exact Or.inr ⟨rfl, hz⟩
      · exact Or.inl (represents_self h0 hd hs)
    obtain ⟨model', hsub', hnull', hinv'⟩ := exec_invariant hhd ops h0 []
      (by simp) (fun c hc _ => hinit c hc) hinv0 hvalid
    rcases hinv' with hrep | ⟨hm0, hun⟩
    · rcases List.mem_cons.mp hb with rfl | hbS
      · right
        have hl := represents_linked hrep b (List.mem_cons_self b _)
        unfold Link.linked at hl
        rw [Bool.and_eq_true] at hl
        obtain ⟨p, hp⟩ := Option.isSome_iff_exists.mp hl.2
        obtain ⟨n, hn⟩ := Option.isSome_iff_exists.mp hl.1
        exact ⟨p, n, hp, hn⟩
      · by_cases hbm : b ∈ model'
        · right
          have hl := represents_linked hrep b (List.mem_cons_of_mem hd hbm)
          unfold Link.linked at hl
          rw [Bool.and_eq_true] at hl
          obtain ⟨p, hp⟩ := Option.isSome_iff_exists.mp hl.2
          obtain ⟨n, hn⟩ := Option.isSome_iff_exists.mp hl.1
          exact ⟨p, n, hp, hn⟩
        · exact Or.inl (hnull' b hbS hbm)
    · subst hm0
      rcases List.mem_cons.mp hb with rfl | hbS
      · exact Or.inl hun
      · exact Or.inl (hnull' b hbS (by simp))
  · intro l hl
    cases l with
    | mk lp ln =>
      unfold Link.linked_assert_ok
      rw [hl]
      constructor
      · intro hok
        simp only [Bool.false_or, Bool.and_eq_true, beq_iff_eq] at hok
        simp [hok.1, hok.2]
      · intro heq
        rw [Link.mk.injEq] at heq
        simp [heq.1, heq.2]

/-- Claim C9, witness: after linking node 1 into the zero initialised
list at head 0, node 1 is fully linked (both pointers set); and a half
linked record fails the assertions of `linked`. -/
theorem claim_C9_witness :
    (execOps 0 zeroHeap [Op.linkTail 1] 1 = ⟨none, none⟩ ∨
      (∃ p n, (execOps 0 zeroHeap [Op.linkTail 1] 1).previous_ = some p ∧
        (execOps 0 zeroHeap [Op.linkTail 1] 1).next_ = some n)) ∧
    ((Link.mk none (some 3)).linked_assert_ok = true
      ↔ Link.mk none (some 3) = ⟨none, none⟩) :=
  ⟨claim_C9.1 0 [1] zeroHeap [Op.linkTail 1] (by decide) (by decide)
      (Or.inl rfl) ⟨⟨by decide, by decide⟩, trivial⟩ 1 (by decide),
    claim_C9.2 ⟨none, some 3⟩ rfl⟩

end UtilsLists
